import Mathlib

/-!
Verification development for the droplet manifest-generation engine
(src/manifest.rs, src/versions/backends.rs, src/versions/mod.rs,
src/versions/types.rs).

The Rust code is shallowly embedded: u64/usize values become Nat (all
arithmetic in the modelled paths is proven or checked not to underflow or
overflow, matching the Rust semantics on the reachable inputs), byte
buffers become List Nat, fallible results become Except, and the chunk
planning loop of generate_manifest_rusty becomes an explicit fold over the
enumerated file list with the (chunks, current_chunk) state passed
explicitly.
-/

namespace Droplet

/-- Mirror of struct VersionFile (src/versions/types.rs lines 7-12):
relative_filename, permission (u32), size (u64). -/
structure VersionFile where
  relative_filename : String
  permission : Nat
  size : Nat
deriving DecidableEq, Repr

/-- A planner slice: the tuple (VersionFile, u64, u64) used in
generate_manifest_rusty (src/manifest.rs line 59); second component is the
start offset, third is the length (as pushed at lines 68, 78, 95, 105 and
consumed at line 167 as reader(&file, start, start + length)). -/
abbrev Slice : Type := VersionFile × Nat × Nat

/-- Constant CHUNK_SIZE (src/manifest.rs line 42): 64 MiB. -/
def CHUNK_SIZE : Nat := 1024 * 1024 * 64

/-- Constant WIGGLE (src/manifest.rs line 43): 1 MiB. -/
def WIGGLE : Nat := 1024 * 1024

/-- Length of one slice as computed at src/manifest.rs line 73 for the
current_size tally: v.2 - v.1, i.e. length minus start (Nat subtraction;
the reachable slices all have start <= length, so this matches u64). Note
this is the LENGTH MINUS START, not the length: the tally convention treats
the tuple as (file, start, end) although the pushes store (file, start,
length). -/
def tallyLen (s : Slice) : Nat := s.2.2 - s.2.1

/-- The tally current_size of a chunk in progress (src/manifest.rs
line 73): sum of v.2 - v.1 over its slices. -/
def tallySize (c : List Slice) : Nat := (c.map tallyLen).sum

/-- Actual payload length of a slice: the length component, which is what
the digest pipeline streams (src/manifest.rs lines 167 and 179). -/
def sliceLen (s : Slice) : Nat := s.2.2

/-- Actual payload of a chunk: sum of its slice lengths. -/
def payload (c : List Slice) : Nat := (c.map sliceLen).sum

/-- Embedding of the carving while-loop of generate_manifest_rusty
(src/manifest.rs lines 103-112):

  while running_offset < remaining_size {
      let chunk_size = CHUNK_SIZE.min(remaining_size);
      let chunk = vec![(version_file.clone(), running_offset, chunk_size)];
      if chunk_size == CHUNK_SIZE { chunks.push(chunk); }
      else { current_chunk = chunk; }
      running_offset += chunk_size;
  }

The loop is embedded with a structural fuel parameter so that it stays
kernel-executable; carveLoop_eq below proves that with any sufficient fuel
(and remainingSize is always sufficient, because running_offset advances by
at least 1 per iteration while it is below remainingSize) the function
satisfies exactly the loop's recurrence, so the fuel is semantically
inert. Arguments: rs = remaining_size, ro = running_offset, acc = chunks
pushed so far, cur = current_chunk. -/
def carveLoop (f : VersionFile) (rs : Nat) :
    Nat → Nat → List (List Slice) → List Slice → List (List Slice) × List Slice
  | 0, _, acc, cur => (acc, cur)
  | fuel + 1, ro, acc, cur =>
    if ro < rs then
      let cs := min CHUNK_SIZE rs
      if cs = CHUNK_SIZE then
        carveLoop f rs fuel (ro + cs) (acc ++ [[(f, ro, cs)]]) cur
      else
        carveLoop f rs fuel (ro + cs) acc [(f, ro, cs)]
    else (acc, cur)

/-- Embedding of one iteration of the planning for-loop of
generate_manifest_rusty (src/manifest.rs lines 64-126), acting on the state
(chunks, current_chunk). required_single_file is the backend's
require_whole_files flag (line 55). Branches in source order: the
own-chunk branch for whole files of size >= CHUNK_SIZE (lines 66-71), the
whole-file append branch (lines 76-89), and the range branch with the
wiggle budget, the prefix push, the carve loop, and the shared close check
(lines 92-125). -/
def planStep (whole : Bool) (st : List (List Slice) × List Slice) (vf : VersionFile) :
    List (List Slice) × List Slice :=
  let chunks := st.1
  let cur := st.2
  if whole ∧ CHUNK_SIZE ≤ vf.size then
    (chunks ++ [[(vf, 0, vf.size)]], cur)
  else
    let currentSize := tallySize cur
    if whole then
      let cur1 := cur ++ [(vf, 0, vf.size)]
      if CHUNK_SIZE ≤ currentSize + vf.size then (chunks ++ [cur1], [])
      else (chunks, cur1)
    else
      let remainingBudget := (CHUNK_SIZE + WIGGLE) - currentSize
      if remainingBudget ≤ vf.size then
        let rb := CHUNK_SIZE - currentSize
        let cur1 := cur ++ [(vf, 0, rb)]
        let chunks1 := chunks ++ [cur1]
        let remainingSize := vf.size - rb
        carveLoop vf remainingSize remainingSize rb chunks1 []
      else
        let cur1 := cur ++ [(vf, 0, vf.size)]
        if CHUNK_SIZE ≤ currentSize + vf.size then (chunks ++ [cur1], [])
        else (chunks, cur1)

/-- Embedding of the whole planning phase of generate_manifest_rusty
(src/manifest.rs lines 59-129): fold the loop body over the enumerated
files starting from empty chunks and an empty current chunk, then flush a
non-empty trailing current chunk (lines 127-129). -/
def planChunks (whole : Bool) (files : List VersionFile) : List (List Slice) :=
  let st := files.foldl (planStep whole) ([], [])
  if st.2 = [] then st.1 else st.1 ++ [st.2]

section PlannerLemmas

/-- With the loop guard false, carveLoop returns its accumulators
unchanged, whatever the fuel. -/
theorem carveLoop_exit (f : VersionFile) (rs fuel ro : Nat)
    (acc : List (List Slice)) (cur : List Slice) (h : ¬ ro < rs) :
    carveLoop f rs fuel ro acc cur = (acc, cur) := by
  cases fuel with
  | zero => rfl
  | succ n => simp [carveLoop, h]

/-- Fuel inertness: any two fuel values at least rs - ro give the same
result, because each loop iteration advances ro by min CHUNK_SIZE rs >= 1
while ro < rs, so at most rs - ro iterations occur. -/
theorem carveLoop_congr (f : VersionFile) (rs : Nat) :
    ∀ fuel₁ fuel₂ ro acc cur, rs ≤ ro + fuel₁ → rs ≤ ro + fuel₂ →
      carveLoop f rs fuel₁ ro acc cur = carveLoop f rs fuel₂ ro acc cur := by
  intro fuel₁
  induction fuel₁ with
  | zero =>
    intro fuel₂ ro acc cur h₁ _
    rw [carveLoop_exit f rs 0 ro acc cur (by omega), carveLoop_exit f rs fuel₂ ro acc cur (by omega)]
  | succ n ih =>
    intro fuel₂ ro acc cur h₁ h₂
    by_cases hro : ro < rs
    · cases fuel₂ with
      | zero => omega
      | succ m =>
        have hcs : 1 ≤ min CHUNK_SIZE rs := by
          have : 1 ≤ CHUNK_SIZE := by norm_num [CHUNK_SIZE]
          omega
        simp only [carveLoop, hro, if_true]
        split
        · exact ih m (ro + min CHUNK_SIZE rs) _ _ (by omega) (by omega)
        · exact ih m (ro + min CHUNK_SIZE rs) _ _ (by omega) (by omega)
    · rw [carveLoop_exit f rs _ ro acc cur hro, carveLoop_exit f rs fuel₂ ro acc cur hro]

/-- With sufficient fuel, carveLoop satisfies exactly the recurrence of the
source while-loop (src/manifest.rs lines 103-112), with the recursive call
again at the canonical sufficient fuel rs. This certifies that the fuel
parameter is a semantically inert embedding device. -/
theorem carveLoop_recurrence (f : VersionFile) (rs fuel ro : Nat)
    (acc : List (List Slice)) (cur : List Slice) (h : rs ≤ ro + fuel) :
    carveLoop f rs fuel ro acc cur =
      if ro < rs then
        if min CHUNK_SIZE rs = CHUNK_SIZE then
          carveLoop f rs rs (ro + min CHUNK_SIZE rs) (acc ++ [[(f, ro, min CHUNK_SIZE rs)]]) cur
        else
          carveLoop f rs rs (ro + min CHUNK_SIZE rs) acc [(f, ro, min CHUNK_SIZE rs)]
      else (acc, cur) := by
  by_cases hro : ro < rs
  · cases fuel with
    | zero => omega
    | succ n =>
      have hcs : 1 ≤ min CHUNK_SIZE rs := by
        have : 1 ≤ CHUNK_SIZE := by norm_num [CHUNK_SIZE]
        omega
      simp only [carveLoop, hro, if_true]
      split
      · rw [carveLoop_congr f rs n rs (ro + min CHUNK_SIZE rs) _ _ (by omega) (by omega)]
      · rw [carveLoop_congr f rs n rs (ro + min CHUNK_SIZE rs) _ _ (by omega) (by omega)]
  · rw [carveLoop_exit f rs fuel ro acc cur hro, if_neg hro]

end PlannerLemmas

section C1

/-- Claim C1 (code_bug evidence): for a single 200 MiB file under the
range-capable backend, the planner emits only three 64 MiB slices,
covering bytes [0, 192 MiB) — the final 8 MiB of the file is assigned to
no chunk, so the plan does not partition [0, size) and the claimed
3 x 64 MiB + 1 x 8 MiB shape does not occur. The carve loop compares the
absolute running offset against the count of remaining bytes
(src/manifest.rs line 103), abandoning the tail. -/
theorem c1_planner_drops_tail_bytes :
    planChunks false [⟨"game.bin", 0, 200 * 1024 * 1024⟩] =
      [[(⟨"game.bin", 0, 200 * 1024 * 1024⟩, 0, 67108864)],
       [(⟨"game.bin", 0, 200 * 1024 * 1024⟩, 67108864, 67108864)],
       [(⟨"game.bin", 0, 200 * 1024 * 1024⟩, 134217728, 67108864)]] ∧
    ((planChunks false [⟨"game.bin", 0, 200 * 1024 * 1024⟩]).flatten.map sliceLen).sum =
      192 * 1024 * 1024 ∧
    (192 * 1024 * 1024 : Nat) ≠ 200 * 1024 * 1024 := by
  refine ⟨by decide, by decide, by decide⟩

end C1

section C7

/-- Invariant for claim C7: every slice recorded in the state starts at
offset 0 and spans the whole file. -/
def WholeSliceState (st : List (List Slice) × List Slice) : Prop :=
  (∀ c ∈ st.1, ∀ s ∈ c, s.2.1 = 0 ∧ s.2.2 = s.1.size) ∧
    ∀ s ∈ st.2, s.2.1 = 0 ∧ s.2.2 = s.1.size

theorem planStep_whole_inv (st : List (List Slice) × List Slice) (vf : VersionFile)
    (h : WholeSliceState st) : WholeSliceState (planStep true st vf) := by
  obtain ⟨hc, hcur⟩ := h
  unfold planStep
  by_cases hbig : CHUNK_SIZE ≤ vf.size
  · simp only [true_and, hbig, if_true]
    refine ⟨?_, hcur⟩
    intro c hc' s hs
    rcases List.mem_append.mp hc' with h₁ | h₁
    · exact hc c h₁ s hs
    · simp only [List.mem_singleton] at h₁
      subst h₁
      simp only [List.mem_singleton] at hs
      subst hs
      exact ⟨rfl, rfl⟩
  · simp only [true_and, hbig, if_false, if_true]
    have hcur1 : ∀ s ∈ st.2 ++ [(vf, 0, vf.size)], s.2.1 = 0 ∧ s.2.2 = s.1.size := by
      intro s hs
      rcases List.mem_append.mp hs with h₁ | h₁
      · exact hcur s h₁
      · simp only [List.mem_singleton] at h₁
        subst h₁
        exact ⟨rfl, rfl⟩
    split
    · refine ⟨?_, by simp⟩
      intro c hc' s hs
      rcases List.mem_append.mp hc' with h₁ | h₁
      · exact hc c h₁ s hs
      · simp only [List.mem_singleton] at h₁
        subst h₁
        exact hcur1 s hs
    · exact ⟨hc, hcur1⟩

theorem planFold_whole_inv (files : List VersionFile) :
    ∀ st, WholeSliceState st → WholeSliceState (files.foldl (planStep true) st) := by
  induction files with
  | nil => intro st h; exact h
  | cons f rest ih =>
    intro st h
    exact ih (planStep true st f) (planStep_whole_inv st f h)

/-- Claim C7: with requiresWholeFiles reported true, every slice in the
resulting chunk plan starts at offset 0 and has exactly the full size of
its file — no file is ever split. In the whole-file branches of the
planning loop (src/manifest.rs lines 66-71 and 76-89) every pushed tuple is
(file, 0, size), and the carving branch is unreachable. -/
theorem c7_whole_files_never_split (files : List VersionFile) (c : List Slice)
    (hc : c ∈ planChunks true files) (s : Slice) (hs : s ∈ c) :
    s.2.1 = 0 ∧ s.2.2 = s.1.size := by
  have hinv := planFold_whole_inv files ([], []) ⟨by simp, by simp⟩
  unfold planChunks at hc
  obtain ⟨h₁, h₂⟩ := hinv
  dsimp only at hc
  split at hc
  · exact h₁ c hc s hs
  · rcases List.mem_append.mp hc with h₃ | h₃
    · exact h₁ c h₃ s hs
    · simp only [List.mem_singleton] at h₃
      subst h₃
      exact h₂ s hs

/-- Concrete instantiation of c7_whole_files_never_split. -/
theorem c7_whole_files_never_split_witness :
    ([((⟨"a", 420, 5⟩ : VersionFile), 0, 5)] ∈ planChunks true [⟨"a", 420, 5⟩]) ∧
      (((⟨"a", 420, 5⟩ : VersionFile), 0, 5) : Slice).2.1 = 0 ∧
      (((⟨"a", 420, 5⟩ : VersionFile), 0, 5) : Slice).2.2 =
        (((⟨"a", 420, 5⟩ : VersionFile), 0, 5) : Slice).1.size :=
  ⟨by decide,
    c7_whole_files_never_split [⟨"a", 420, 5⟩] [((⟨"a", 420, 5⟩ : VersionFile), 0, 5)]
      (by decide) ((⟨"a", 420, 5⟩ : VersionFile), 0, 5) (by decide)⟩

end C7

section SizeInvariant

theorem tallySize_append (a b : List Slice) :
    tallySize (a ++ b) = tallySize a + tallySize b := by
  simp [tallySize]

theorem payload_append (a b : List Slice) :
    payload (a ++ b) = payload a + payload b := by
  simp [payload]

theorem tallySize_single (f : VersionFile) (a b : Nat) :
    tallySize [(f, a, b)] = b - a := by
  simp [tallySize, tallyLen]

theorem payload_single (f : VersionFile) (a b : Nat) :
    payload [(f, a, b)] = b := by
  simp [payload, sliceLen]

theorem chunkSize_pos : 0 < CHUNK_SIZE := by norm_num [CHUNK_SIZE]

/-- Bound satisfied by every emitted chunk (the amended C4 invariant): its
payload stays below 2 x CHUNK_SIZE + WIGGLE, unless it is a whole-file-mode
chunk forced to hold a single file of size at least CHUNK_SIZE, whose
payload is exactly that file's size. -/
def GoodChunk (whole : Bool) (c : List Slice) : Prop :=
  payload c < 2 * CHUNK_SIZE + WIGGLE ∨
    (whole = true ∧ ∃ f : VersionFile, CHUNK_SIZE ≤ f.size ∧ c = [(f, 0, f.size)])

/-- Invariant of the in-progress chunk at the top of the planning loop: its
current_size tally (sum of length - start) is below CHUNK_SIZE, its actual
payload is below tally + CHUNK_SIZE (the tally undercounts a carved
remainder slice by its start offset, which is below CHUNK_SIZE), and in
whole-file mode every slice starts at 0 so payload and tally agree. -/
def CurOk (whole : Bool) (cur : List Slice) : Prop :=
  tallySize cur < CHUNK_SIZE ∧ payload cur < tallySize cur + CHUNK_SIZE ∧
    (whole = true → payload cur = tallySize cur)

theorem curOk_nil (whole : Bool) : CurOk whole [] := by
  refine ⟨?_, ?_, ?_⟩ <;> simp [tallySize, payload, chunkSize_pos]

/-- Invariant of the carving loop: pushed chunks stay good, and the
current chunk is either empty or a single remainder slice
(f, ro, remainingSize) with ro < remainingSize < CHUNK_SIZE. -/
theorem carveLoop_inv (f : VersionFile) (rs : Nat) (whole : Bool) :
    ∀ fuel ro acc cur, (∀ c ∈ acc, GoodChunk whole c) →
      (cur = [] ∨ ∃ ro', ro' < rs ∧ rs < CHUNK_SIZE ∧ cur = [(f, ro', rs)]) →
      (∀ c ∈ (carveLoop f rs fuel ro acc cur).1, GoodChunk whole c) ∧
        ((carveLoop f rs fuel ro acc cur).2 = [] ∨
          ∃ ro', ro' < rs ∧ rs < CHUNK_SIZE ∧ (carveLoop f rs fuel ro acc cur).2 = [(f, ro', rs)]) := by
  intro fuel
  induction fuel with
  | zero => intro ro acc cur hacc hcur; exact ⟨hacc, hcur⟩
  | succ n ih =>
    intro ro acc cur hacc hcur
    by_cases hro : ro < rs
    · simp only [carveLoop, hro, if_true]
      split
      next hfull =>
        refine ih (ro + min CHUNK_SIZE rs) _ _ ?_ hcur
        intro c hc
        rcases List.mem_append.mp hc with h₁ | h₁
        · exact hacc c h₁
        · simp only [List.mem_singleton] at h₁
          subst h₁
          left
          rw [payload_single, hfull]
          have := WIGGLE
          norm_num [CHUNK_SIZE, WIGGLE]
      next hseed =>
        refine ih (ro + min CHUNK_SIZE rs) _ _ hacc ?_
        right
        have hlt : rs < CHUNK_SIZE := by
          rcases Nat.lt_or_ge rs CHUNK_SIZE with h | h
          · exact h
          · exact absurd (Nat.min_eq_left h) hseed
        refine ⟨ro, hro, hlt, ?_⟩
        rw [Nat.min_eq_right (Nat.le_of_lt hlt)]
    · rw [carveLoop_exit f rs _ ro acc cur hro]
      exact ⟨hacc, hcur⟩

/-- Preservation of the size invariants by one iteration of the planning
loop. -/
theorem planStep_inv (whole : Bool) (st : List (List Slice) × List Slice) (vf : VersionFile)
    (hacc : ∀ c ∈ st.1, GoodChunk whole c) (hcur : CurOk whole st.2) :
    (∀ c ∈ (planStep whole st vf).1, GoodChunk whole c) ∧ CurOk whole (planStep whole st vf).2 := by
  obtain ⟨ht, hp, hw⟩ := hcur
  simp only [planStep]
  split
  next hforce =>
    refine ⟨?_, ht, hp, hw⟩
    intro c hc
    rcases List.mem_append.mp hc with h₁ | h₁
    · exact hacc c h₁
    · simp only [List.mem_singleton] at h₁
      subst h₁
      exact Or.inr ⟨hforce.1, vf, hforce.2, rfl⟩
  next hnf =>
    split
    next hwhole =>
      have hsize : vf.size < CHUNK_SIZE := by
        by_contra hge
        exact hnf ⟨hwhole, Nat.le_of_not_lt hge⟩
      have htal : tallySize (st.2 ++ [(vf, 0, vf.size)]) = tallySize st.2 + vf.size := by
        rw [tallySize_append, tallySize_single]
        omega
      have hpay : payload (st.2 ++ [(vf, 0, vf.size)]) = payload st.2 + vf.size := by
        rw [payload_append, payload_single]
      have hpw := hw hwhole
      split
      next hclose =>
        refine ⟨?_, curOk_nil whole⟩
        intro c hc
        rcases List.mem_append.mp hc with h₁ | h₁
        · exact hacc c h₁
        · simp only [List.mem_singleton] at h₁
          subst h₁
          left
          omega
      next hopen =>
        refine ⟨hacc, ?_, ?_, fun _ => ?_⟩ <;> dsimp only <;> omega
    next hrange =>
      have hwfalse : ¬ whole = true := hrange
      split
      next hcarve =>
        have hres := carveLoop_inv vf (vf.size - (CHUNK_SIZE - tallySize st.2)) whole
          (vf.size - (CHUNK_SIZE - tallySize st.2)) (CHUNK_SIZE - tallySize st.2)
          (st.1 ++ [st.2 ++ [(vf, 0, CHUNK_SIZE - tallySize st.2)]]) []
          (by
            intro c hc
            rcases List.mem_append.mp hc with h₁ | h₁
            · exact hacc c h₁
            · simp only [List.mem_singleton] at h₁
              subst h₁
              left
              rw [payload_append, payload_single]
              omega)
          (Or.inl rfl)
        refine ⟨hres.1, ?_⟩
        rcases hres.2 with h | ⟨ro', hro', hrs, heq⟩
        · rw [h]
          exact curOk_nil whole
        · rw [heq]
          refine ⟨?_, ?_, fun hww => absurd hww hwfalse⟩
          · rw [tallySize_single]
            omega
          · rw [tallySize_single, payload_single]
            omega
      next hsmall =>
        have hbud : tallySize st.2 + vf.size < CHUNK_SIZE + WIGGLE := by omega
        have htal : tallySize (st.2 ++ [(vf, 0, vf.size)]) = tallySize st.2 + vf.size := by
          rw [tallySize_append, tallySize_single]
          omega
        have hpay : payload (st.2 ++ [(vf, 0, vf.size)]) = payload st.2 + vf.size := by
          rw [payload_append, payload_single]
        split
        next hclose =>
          refine ⟨?_, curOk_nil whole⟩
          intro c hc
          rcases List.mem_append.mp hc with h₁ | h₁
          · exact hacc c h₁
          · simp only [List.mem_singleton] at h₁
            subst h₁
            left
            omega
        next hopen =>
          refine ⟨hacc, ?_, ?_, fun hww => absurd hww hwfalse⟩ <;> dsimp only <;> omega

/-- The size invariants hold after folding the planning loop over any file
list. -/
theorem planFold_inv (whole : Bool) (files : List VersionFile) :
    ∀ st, (∀ c ∈ st.1, GoodChunk whole c) → CurOk whole st.2 →
      (∀ c ∈ (files.foldl (planStep whole) st).1, GoodChunk whole c) ∧
        CurOk whole (files.foldl (planStep whole) st).2 := by
  induction files with
  | nil => intro st h1 h2; exact ⟨h1, h2⟩
  | cons g rest ih =>
    intro st h1 h2
    have hstep := planStep_inv whole st g h1 h2
    exact ih (planStep whole st g) hstep.1 hstep.2

section C4

/-- Claim C4 (counterexample): with a range-capable backend and files of
60 MiB, 60 MiB, 12 MiB and 1 MiB, the second emitted chunk has payload
68 MiB, which exceeds target + tolerance (65 MiB), although it holds two
partial/small files (not a forced whole file) and is not the final chunk.
The tally current_size of the in-progress chunk sums length - start
(src/manifest.rs line 73), so the carved remainder slice of file b
(start 4 MiB, length 56 MiB) is counted as 52 MiB, and file c of 12 MiB is
accepted into a chunk already holding 56 MiB. -/
theorem c4_target_bound_counterexample :
    planChunks false
        [⟨"a", 0, 62914560⟩, ⟨"b", 0, 62914560⟩, ⟨"c", 0, 12582912⟩, ⟨"d", 0, 1048576⟩] =
      [[(⟨"a", 0, 62914560⟩, 0, 62914560), (⟨"b", 0, 62914560⟩, 0, 4194304)],
       [(⟨"b", 0, 62914560⟩, 4194304, 58720256), (⟨"c", 0, 12582912⟩, 0, 12582912)],
       [(⟨"d", 0, 1048576⟩, 0, 1048576)]] ∧
    payload [((⟨"b", 0, 62914560⟩ : VersionFile), 4194304, 58720256),
        ((⟨"c", 0, 12582912⟩ : VersionFile), 0, 12582912)] = 71303168 ∧
    CHUNK_SIZE + WIGGLE < 71303168 := by
  refine ⟨by decide, by decide, by decide⟩

/-- Claim C4 (amended): in both backend modes, every planned chunk's
payload is below 2 x target + tolerance, except a whole-file-mode chunk
forced to hold a single file of size >= target, whose payload is exactly
that file's size. (The original target + tolerance bound fails, see
c4_target_bound_counterexample.) -/
theorem c4_payload_bound (whole : Bool) (files : List VersionFile) (c : List Slice)
    (hc : c ∈ planChunks whole files) :
    payload c < 2 * CHUNK_SIZE + WIGGLE ∨
      (whole = true ∧ ∃ f : VersionFile, CHUNK_SIZE ≤ f.size ∧ c = [(f, 0, f.size)]) := by
  have hinv := planFold_inv whole files ([], []) (by simp) (curOk_nil whole)
  unfold planChunks at hc
  dsimp only at hc
  split at hc
  · exact hinv.1 c hc
  · rcases List.mem_append.mp hc with h₁ | h₁
    · exact hinv.1 c h₁
    · simp only [List.mem_singleton] at h₁
      subst h₁
      left
      obtain ⟨ht, hp, _⟩ := hinv.2
      omega

/-- Concrete instantiation of c4_payload_bound. -/
theorem c4_payload_bound_witness :
    ([((⟨"a", 0, 5⟩ : VersionFile), 0, 5)] ∈ planChunks false [⟨"a", 0, 5⟩]) ∧
      (payload [((⟨"a", 0, 5⟩ : VersionFile), 0, 5)] < 2 * CHUNK_SIZE + WIGGLE ∨
        (false = true ∧ ∃ f : VersionFile, CHUNK_SIZE ≤ f.size ∧
          [((⟨"a", 0, 5⟩ : VersionFile), 0, 5)] = [(f, 0, f.size)])) :=
  ⟨by decide, c4_payload_bound false [⟨"a", 0, 5⟩] [((⟨"a", 0, 5⟩ : VersionFile), 0, 5)] (by decide)⟩

end C4

end SizeInvariant

section SliceTracking

/-- All slices recorded in a planner state: the slices of the emitted
chunks followed by the in-progress chunk. -/
def stateSlices (st : List (List Slice) × List Slice) : List Slice :=
  st.1.flatten ++ st.2

/-- The slices of the final plan are exactly the slices of the fold's
final state (the flush at src/manifest.rs lines 127-129 only moves the
trailing in-progress chunk into the chunk list). -/
theorem planChunks_flatten (whole : Bool) (files : List VersionFile) :
    (planChunks whole files).flatten = stateSlices (files.foldl (planStep whole) ([], [])) := by
  unfold planChunks stateSlices
  dsimp only
  split
  next h => rw [h, List.append_nil]
  next _ => rw [List.flatten_append]; simp

/-- Called with an empty current chunk, the carving loop only appends
slices of its own file after the accumulated chunks. -/
theorem carveLoop_slices (f : VersionFile) (rs : Nat) :
    ∀ fuel ro acc, ∃ tail : List Slice,
      stateSlices (carveLoop f rs fuel ro acc []) = acc.flatten ++ tail ∧
        ∀ s ∈ tail, s.1 = f := by
  intro fuel
  induction fuel with
  | zero =>
    intro ro acc
    exact ⟨[], by simp [stateSlices, carveLoop], fun s h => absurd h (List.not_mem_nil s)⟩
  | succ n ih =>
    intro ro acc
    by_cases hro : ro < rs
    · simp only [carveLoop, hro, if_true]
      split
      next hfull =>
        obtain ⟨tail, htail, hall⟩ := ih (ro + min CHUNK_SIZE rs) (acc ++ [[(f, ro, min CHUNK_SIZE rs)]])
        refine ⟨(f, ro, min CHUNK_SIZE rs) :: tail, ?_, ?_⟩
        · rw [htail, List.flatten_append]
          simp
        · intro s hs
          rcases List.mem_cons.mp hs with h | h
          · rw [h]
          · exact hall s h
      next hseed =>
        have hlt : rs < CHUNK_SIZE := by
          rcases Nat.lt_or_ge rs CHUNK_SIZE with h | h
          · exact h
          · exact absurd (Nat.min_eq_left h) hseed
        have hcs : min CHUNK_SIZE rs = rs := Nat.min_eq_right (Nat.le_of_lt hlt)
        rw [hcs, carveLoop_exit f rs n (ro + rs) acc [(f, ro, rs)] (by omega)]
        refine ⟨[(f, ro, rs)], by simp [stateSlices], ?_⟩
        intro s hs
        simp only [List.mem_singleton] at hs
        subst hs
        rfl
    · rw [carveLoop_exit f rs _ ro acc [] hro]
      exact ⟨[], by simp [stateSlices], fun s h => absurd h (List.not_mem_nil s)⟩

/-- One planning iteration appends (up to permutation; the forced
whole-file chunk of src/manifest.rs lines 66-71 is pushed ahead of the
still-open current chunk) only slices of the file being processed, and a
zero-byte file contributes exactly the single slice (file, 0, 0). -/
theorem planStep_slices (whole : Bool) (st : List (List Slice) × List Slice) (vf : VersionFile)
    (htally : tallySize st.2 < CHUNK_SIZE) :
    ∃ new : List Slice,
      (stateSlices (planStep whole st vf)).Perm (stateSlices st ++ new) ∧
        (∀ s ∈ new, s.1 = vf) ∧ (vf.size = 0 → new = [(vf, 0, 0)]) := by
  have hsingle : ∀ s ∈ ([(vf, 0, vf.size)] : List Slice), s.1 = vf := by
    intro s hs
    simp only [List.mem_singleton] at hs
    subst hs
    rfl
  simp only [planStep]
  split
  next hforce =>
    refine ⟨[(vf, 0, vf.size)], ?_, hsingle, fun h0 => by rw [h0]⟩
    simp only [stateSlices, List.flatten_append, List.flatten_cons, List.flatten_nil,
      List.append_nil, List.append_assoc]
    exact List.Perm.append_left st.1.flatten List.perm_append_comm
  next hnf =>
    split
    next hwhole =>
      split
      next hclose =>
        refine ⟨[(vf, 0, vf.size)], ?_, hsingle, fun h0 => by rw [h0]⟩
        have : stateSlices (st.1 ++ [st.2 ++ [(vf, 0, vf.size)]], ([] : List Slice)) =
            stateSlices st ++ [(vf, 0, vf.size)] := by
          simp [stateSlices]
        rw [this]
      next hopen =>
        refine ⟨[(vf, 0, vf.size)], ?_, hsingle, fun h0 => by rw [h0]⟩
        have : stateSlices (st.1, st.2 ++ [(vf, 0, vf.size)]) =
            stateSlices st ++ [(vf, 0, vf.size)] := by
          simp [stateSlices]
        rw [this]
    next hrange =>
      split
      next hcarve =>
        obtain ⟨tail, htail, hall⟩ :=
          carveLoop_slices vf (vf.size - (CHUNK_SIZE - tallySize st.2))
            (vf.size - (CHUNK_SIZE - tallySize st.2)) (CHUNK_SIZE - tallySize st.2)
            (st.1 ++ [st.2 ++ [(vf, 0, CHUNK_SIZE - tallySize st.2)]])
        refine ⟨(vf, 0, CHUNK_SIZE - tallySize st.2) :: tail, ?_, ?_, ?_⟩
        · rw [htail, List.flatten_append]
          simp only [stateSlices, List.flatten_cons, List.flatten_nil, List.append_nil,
            List.append_assoc]
          exact List.Perm.refl _
        · intro s hs
          rcases List.mem_cons.mp hs with h | h
          · rw [h]
          · exact hall s h
        · intro h0
          exfalso
          omega
      next hsmall =>
        split
        next hclose =>
          refine ⟨[(vf, 0, vf.size)], ?_, hsingle, fun h0 => by rw [h0]⟩
          have : stateSlices (st.1 ++ [st.2 ++ [(vf, 0, vf.size)]], ([] : List Slice)) =
              stateSlices st ++ [(vf, 0, vf.size)] := by
            simp [stateSlices]
          rw [this]
        next hopen =>
          refine ⟨[(vf, 0, vf.size)], ?_, hsingle, fun h0 => by rw [h0]⟩
          have : stateSlices (st.1, st.2 ++ [(vf, 0, vf.size)]) =
              stateSlices st ++ [(vf, 0, vf.size)] := by
            simp [stateSlices]
          rw [this]

end SliceTracking

section C9

/-- Folding the planner over a file list appends, up to permutation, one
slice (f, 0, 0) per occurrence of a zero-byte file f, as seen through the
filter that retains only f's slices. -/
theorem planFold_filter (whole : Bool) (f : VersionFile) (hf : f.size = 0) :
    ∀ (files : List VersionFile) (st : List (List Slice) × List Slice),
      (∀ c ∈ st.1, GoodChunk whole c) → CurOk whole st.2 →
      ((stateSlices (files.foldl (planStep whole) st)).filter (fun s => s.1 == f)).Perm
        ((stateSlices st).filter (fun s => s.1 == f) ++
          List.replicate (files.count f) ((f : VersionFile), 0, 0)) := by
  intro files
  induction files with
  | nil =>
    intro st _ _
    simp
  | cons g rest ih =>
    intro st h1 h2
    have hstep := planStep_inv whole st g h1 h2
    obtain ⟨new, hperm, hall, hzero⟩ := planStep_slices whole st g h2.1
    have ihr := ih (planStep whole st g) hstep.1 hstep.2
    rw [List.foldl_cons]
    refine ihr.trans ?_
    have hfil : ((stateSlices (planStep whole st g)).filter (fun s => s.1 == f)).Perm
        ((stateSlices st).filter (fun s => s.1 == f) ++ new.filter (fun s => s.1 == f)) := by
      have h := hperm.filter (fun s => s.1 == f)
      rw [List.filter_append] at h
      exact h
    refine (hfil.append_right _).trans ?_
    by_cases hg : g = f
    · subst hg
      have hnew : new = [(g, 0, 0)] := hzero hf
      rw [hnew, List.count_cons_self]
      simp only [List.filter_cons, List.filter_nil, beq_self_eq_true, if_true, ite_true,
        List.replicate_succ, List.append_assoc, List.singleton_append]
      exact List.Perm.refl _
    · have hnewnil : new.filter (fun s => s.1 == f) = [] := by
        rw [List.filter_eq_nil_iff]
        intro s hs
        rw [hall s hs]
        simp [hg]
      rw [hnewnil, List.count_cons_of_ne (fun h => hg h.symm), List.append_nil]

/-- Claim C9: for every input file list containing a zero-byte file
exactly once, in either backend mode, planning terminates (the embedded
planner is a total function whose carve fuel is proven sufficient by
carveLoop_recurrence) and that file receives exactly one slice in the
whole plan, namely (file, 0, 0): start 0 and length 0, in exactly one
chunk. -/
theorem c9_zero_byte_file (whole : Bool) (files : List VersionFile) (f : VersionFile)
    (hsize : f.size = 0) (hcount : files.count f = 1) :
    (planChunks whole files).flatten.filter (fun s => s.1 == f) = [(f, 0, 0)] := by
  have h := planFold_filter whole f hsize files ([], []) (by simp) (curOk_nil whole)
  rw [hcount] at h
  rw [planChunks_flatten]
  simp only [stateSlices, List.flatten_nil, List.append_nil, List.filter_nil,
    List.nil_append, List.replicate_succ, List.replicate_zero] at h
  exact List.perm_singleton.mp h

/-- Concrete instantiation of c9_zero_byte_file. -/
theorem c9_zero_byte_file_witness :
    ((⟨"z", 0, 0⟩ : VersionFile).size = 0) ∧
      (([⟨"z", 0, 0⟩] : List VersionFile).count ⟨"z", 0, 0⟩ = 1) ∧
      (planChunks false [⟨"z", 0, 0⟩]).flatten.filter
          (fun s => s.1 == (⟨"z", 0, 0⟩ : VersionFile)) = [(⟨"z", 0, 0⟩, 0, 0)] :=
  ⟨rfl, by decide, c9_zero_byte_file false [⟨"z", 0, 0⟩] ⟨"z", 0, 0⟩ rfl (by decide)⟩

end C9

section Enumeration

/-- Model of a filesystem entry as seen by _list_files
(src/versions/backends.rs lines 21-35): a directory holds an ordered list
of entries (the order read_dir yields), a file carries the metadata that
peek_file (lines 86-113) later reports: permission mode and byte length. -/
inductive FsEntry where
  | file (name : String) (permission : Nat) (size : Nat)
  | dir (name : String) (entries : List FsEntry)

mutual

/-- Walk of one entry: files are emitted with their path relative to the
base directory; directories are recursed in place, exactly as _list_files
pushes files and recurses subdirectories inside the single read_dir loop
(src/versions/backends.rs lines 24-31). -/
def walkEntry (pre : String) : FsEntry → List VersionFile
  | .file n p s => [⟨pre ++ n, p, s⟩]
  | .dir n es => walkEntries (pre ++ n ++ "/") es

/-- Walk of a directory's entry list in read_dir order. -/
def walkEntries (pre : String) : List FsEntry → List VersionFile
  | [] => []
  | e :: rest => walkEntry pre e ++ walkEntries pre rest

end

/-- Embedding of PathVersionBackend::list_files (src/versions/backends.rs
lines 44-65): collect all file paths below the base directory in traversal
order, then report each with its base-relative path and metadata. A base
path that is not a directory yields no files (the guard at line 22). No
sorting of any kind is applied. -/
def listFiles : FsEntry → List VersionFile
  | .file _ _ _ => []
  | .dir _ es => walkEntries "" es

/-- Claim C5 (counterexample): the enumeration that the planner folds over
(generate_manifest_rusty consumes backend.list_files() as returned,
src/manifest.rs lines 57-64) is in directory-traversal order, not sorted
descending by size: a directory whose read_dir order lists a 1-byte file
before a 2-byte file enumerates exactly in that order, so a smaller file
precedes a larger one. -/
theorem c5_enumeration_not_sorted_counterexample :
    listFiles (.dir "root" [.file "a" 420 1, .file "b" 420 2]) =
      [⟨"a", 420, 1⟩, ⟨"b", 420, 2⟩] ∧
      ¬ List.Chain' (fun x y : VersionFile => y.size ≤ x.size)
        (listFiles (.dir "root" [.file "a" 420 1, .file "b" 420 2])) := by
  have h : listFiles (.dir "root" [.file "a" 420 1, .file "b" 420 2]) =
      [⟨"a", 420, 1⟩, ⟨"b", 420, 2⟩] := by
    simp [listFiles, walkEntries, walkEntry]
  refine ⟨h, ?_⟩
  rw [h]
  norm_num [List.chain'_cons]

/-- Removal of consecutive duplicates, used to read off the order in which
distinct files appear in the plan's slice sequence. -/
def collapse : List VersionFile → List VersionFile
  | [] => []
  | [a] => [a]
  | a :: b :: t => if a = b then collapse (b :: t) else a :: collapse (b :: t)

theorem collapse_mem (x : VersionFile) : ∀ l : List VersionFile, x ∈ collapse l ↔ x ∈ l := by
  intro l
  induction l with
  | nil => simp [collapse]
  | cons a t ih =>
    cases t with
    | nil => simp [collapse]
    | cons b t' =>
      simp only [collapse]
      split
      next heq =>
        subst heq
        rw [ih]
        simp
      next hne =>
        simp only [List.mem_cons] at ih ⊢
        rw [ih]

theorem collapse_const (f : VersionFile) :
    ∀ l : List VersionFile, l ≠ [] → (∀ x ∈ l, x = f) → collapse l = [f] := by
  intro l
  induction l with
  | nil => intro h; exact absurd rfl h
  | cons a t ih =>
    intro _ hall
    cases t with
    | nil => rw [collapse, hall a (by simp)]
    | cons b t' =>
      have hab : a = b := by
        rw [hall a (by simp), hall b (by simp)]
      rw [collapse, if_pos hab]
      exact ih (by simp) (fun x hx => hall x (List.mem_cons_of_mem a hx))

theorem collapse_append_block (f : VersionFile) (ys : List VersionFile)
    (hys : ys ≠ []) (hall : ∀ y ∈ ys, y = f) :
    ∀ xs : List VersionFile, f ∉ xs → collapse (xs ++ ys) = collapse xs ++ [f] := by
  intro xs
  induction xs with
  | nil =>
    intro _
    rw [List.nil_append, collapse_const f ys hys hall, collapse]
    rfl
  | cons a t ih =>
    intro hnot
    have haf : a ≠ f := fun h => hnot (h ▸ List.mem_cons_self a t)
    cases t with
    | nil =>
      cases ys with
      | nil => exact absurd rfl hys
      | cons y ys' =>
        have hyf : y = f := hall y (by simp)
        have hay : ¬ a = y := fun h => haf (h.trans hyf)
        show collapse (a :: y :: ys') = collapse [a] ++ [f]
        simp only [collapse, if_neg hay]
        rw [collapse_const f (y :: ys') (by simp) hall]
        rfl
    | cons b t' =>
      have hbt : f ∉ b :: t' := fun h => hnot (List.mem_cons_of_mem a h)
      have ihr := ih hbt
      by_cases hab : a = b
      · simp only [List.cons_append] at ihr ⊢
        simp only [collapse, if_pos hab]
        exact ihr
      · simp only [List.cons_append] at ihr ⊢
        simp only [collapse, if_neg hab]
        rw [ihr]
        rfl

/-- Range-mode version of planStep_slices with an exact equation: under a
range-capable backend the new file's slices are appended after all
previously recorded slices, and at least one slice is produced. -/
theorem planStep_slices_range (st : List (List Slice) × List Slice) (vf : VersionFile) :
    ∃ new : List Slice,
      stateSlices (planStep false st vf) = stateSlices st ++ new ∧
        (∀ s ∈ new, s.1 = vf) ∧ new ≠ [] := by
  have hsingle : ∀ s ∈ ([(vf, 0, vf.size)] : List Slice), s.1 = vf := by
    intro s hs
    simp only [List.mem_singleton] at hs
    subst hs
    rfl
  simp only [planStep, Bool.false_eq_true, false_and, if_false, ite_false]
  split
  next hcarve =>
    obtain ⟨tail, htail, hall⟩ :=
      carveLoop_slices vf (vf.size - (CHUNK_SIZE - tallySize st.2))
        (vf.size - (CHUNK_SIZE - tallySize st.2)) (CHUNK_SIZE - tallySize st.2)
        (st.1 ++ [st.2 ++ [(vf, 0, CHUNK_SIZE - tallySize st.2)]])
    refine ⟨(vf, 0, CHUNK_SIZE - tallySize st.2) :: tail, ?_, ?_, by simp⟩
    · rw [htail, List.flatten_append]
      simp [stateSlices]
    · intro s hs
      rcases List.mem_cons.mp hs with h | h
      · rw [h]
      · exact hall s h
  next hsmall =>
    split
    next hclose =>
      refine ⟨[(vf, 0, vf.size)], ?_, hsingle, by simp⟩
      simp [stateSlices]
    next hopen =>
      refine ⟨[(vf, 0, vf.size)], ?_, hsingle, by simp⟩
      simp [stateSlices]

/-- Under a range-capable backend, folding the planner over a duplicate-free
file list records slices whose file sequence, with consecutive runs
collapsed, is exactly the input enumeration order. -/
theorem planFold_collapse (files : List VersionFile) (hnd : files.Nodup) :
    collapse ((stateSlices (files.foldl (planStep false) ([], []))).map Prod.fst) = files := by
  induction files using List.reverseRecOn with
  | nil => simp [stateSlices, collapse]
  | append_singleton l a ih =>
    have hnd' : l.Nodup := (List.nodup_append.mp hnd).1
    have hna : a ∉ l := by
      have hdisj := (List.nodup_append.mp hnd).2.2
      intro hmem
      exact hdisj hmem (List.mem_singleton_self a)
    obtain ⟨new, hnew, hall, hne⟩ := planStep_slices_range (l.foldl (planStep false) ([], [])) a
    rw [List.foldl_append, List.foldl_cons, List.foldl_nil, hnew, List.map_append]
    have hallf : ∀ y ∈ new.map Prod.fst, y = a := by
      intro y hy
      obtain ⟨s, hs, rfl⟩ := List.mem_map.mp hy
      exact hall s hs
    have hmapne : new.map Prod.fst ≠ [] := by
      intro h
      exact hne (List.map_eq_nil_iff.mp h)
    have hnotin : a ∉ (stateSlices (l.foldl (planStep false) ([], []))).map Prod.fst := by
      intro hmem
      apply hna
      rw [← ih hnd', collapse_mem]
      exact hmem
    rw [collapse_append_block a (new.map Prod.fst) hmapne hallf _ hnotin, ih hnd']

/-- Claim C5 (amended): the planner iterates the enumerated file list in
the order the backend returns it — directory-traversal order, with no
sorting by size (see c5_enumeration_not_sorted_counterexample) — and, under
the range-capable backend the claim cites, the emitted plan lists each
file's slices contiguously in exactly that enumeration order: collapsing
consecutive runs of equal files in the plan's slice sequence recovers the
input list. -/
theorem c5_plan_order_is_enumeration_order (files : List VersionFile) (hnd : files.Nodup) :
    collapse ((planChunks false files).flatten.map Prod.fst) = files := by
  rw [planChunks_flatten]
  exact planFold_collapse files hnd

/-- Concrete instantiation of c5_plan_order_is_enumeration_order. -/
theorem c5_plan_order_witness :
    ([⟨"a", 420, 1⟩, ⟨"b", 420, 2⟩] : List VersionFile).Nodup ∧
      collapse ((planChunks false [⟨"a", 420, 1⟩, ⟨"b", 420, 2⟩]).flatten.map Prod.fst) =
        [⟨"a", 420, 1⟩, ⟨"b", 420, 2⟩] :=
  ⟨by decide, c5_plan_order_is_enumeration_order [⟨"a", 420, 1⟩, ⟨"b", 420, 2⟩] (by decide)⟩

end Enumeration

section ManifestDocument

/-- Mirror of struct FileEntry (src/manifest.rs lines 20-26): filename,
start, length, permissions. -/
structure FileEntry where
  filename : String
  start : Nat
  length : Nat
  permissions : Nat
deriving DecidableEq, Repr

/-- Mirror of struct ChunkData (src/manifest.rs lines 28-33): files and
checksum. The iv member is commented out in the source (line 32), so the
struct has no IV field. -/
structure ChunkData where
  files : List FileEntry
  checksum : String
deriving DecidableEq, Repr

/-- Mirror of struct Manifest (src/manifest.rs lines 35-40): version,
chunks and size. The HashMap<String, ChunkData> is modelled as an
association list (serde serializes it as one JSON object); there is no
key field in the struct. -/
structure Manifest where
  version : String
  chunks : List (String × ChunkData)
  size : Nat
deriving DecidableEq, Repr

/-- Minimal JSON document model for the serde `Serialize` output. -/
inductive Json where
  | str (s : String)
  | num (n : Nat)
  | arr (xs : List Json)
  | obj (fields : List (String × Json))

/-- Serialization of FileEntry per its serde derive: fields in declaration
order. -/
def fileEntryToJson (fe : FileEntry) : Json :=
  .obj [("filename", .str fe.filename), ("start", .num fe.start),
        ("length", .num fe.length), ("permissions", .num fe.permissions)]

/-- Serialization of ChunkData per its serde derive: the two declared
fields, files then checksum. -/
def chunkDataToJson (c : ChunkData) : Json :=
  .obj [("files", .arr (c.files.map fileEntryToJson)), ("checksum", .str c.checksum)]

/-- Serialization of Manifest per its serde derive: version, chunks (an
object keyed by chunk id), size. -/
def manifestToJson (m : Manifest) : Json :=
  .obj [("version", .str m.version),
        ("chunks", .obj (m.chunks.map (fun kv => (kv.1, chunkDataToJson kv.2)))),
        ("size", .num m.size)]

/-- Top-level member names of a JSON object. -/
def jsonKeys : Json → List String
  | .obj fields => fields.map Prod.fst
  | _ => []

/-- Outcome of one chunk task of generate_manifest_rusty (src/manifest.rs
lines 150-208): on success the task has inserted (uuid, ChunkData) into the
shared map (line 204) and added its chunk_length to the running total
(line 198); on a read, reader-acquisition or channel-send error the `?`
operator aborts the task before both effects, yielding this error. -/
abbrev TaskOutcome : Type := Except String (String × ChunkData × Nat)

/-- Embedding of the join and assembly of generate_manifest_rusty
(src/manifest.rs lines 211-231) as a function of the chunk-task outcomes:
join! waits for the reporter loop and for
futures.collect::<Vec<Result<(), Error>>>() and DISCARDS the collected
Vec of results (line 221's value is never inspected), after which the
function unconditionally returns Ok(Manifest { version: "2", chunks,
size }) built from whatever the successful tasks inserted. -/
def assembleManifest (outcomes : List TaskOutcome) : Except String Manifest :=
  Except.ok
    { version := "2"
      chunks := outcomes.filterMap (fun o => match o with
        | .ok (u, d, _) => some (u, d)
        | .error _ => none)
      size := (outcomes.filterMap (fun o => match o with
        | .ok (_, _, len) => some len
        | .error _ => none)).sum }

/-- Claim C2 (code_bug evidence): a run whose only chunk task fails with a
read error still produces Ok — an empty, partial manifest rather than an
error — and with one succeeding and one failing task the overall result is
Ok with only the succeeding chunk present. The chunk tasks propagate their
errors out of the task with the ? operator, but the Vec of task results
collected by join! (src/manifest.rs line 221) is dropped on the floor, so
generate_manifest_rusty never surfaces them. -/
theorem c2_task_errors_are_discarded :
    assembleManifest [Except.error "read error"] =
      Except.ok { version := "2", chunks := [], size := 0 } ∧
    assembleManifest [Except.ok ("id1", ⟨[], "abc"⟩, 5), Except.error "read error"] =
      Except.ok { version := "2", chunks := [("id1", ⟨[], "abc"⟩)], size := 5 } :=
  ⟨rfl, rfl⟩

/-- Claim C3 (counterexample): a successfully produced manifest document
has no manifest-wide key member and its chunk record has no iv member: the
iv field of ChunkData is commented out (src/manifest.rs line 32) and
Manifest declares only version, chunks and size (lines 35-40). -/
theorem c3_no_iv_no_key_counterexample :
    jsonKeys (manifestToJson ((assembleManifest
        [Except.ok ("id1", ⟨[⟨"a", 0, 1, 420⟩], "ff"⟩, 1)]).toOption.getD
          ⟨"", [], 0⟩)) = ["version", "chunks", "size"] ∧
    "key" ∉ jsonKeys (manifestToJson ((assembleManifest
        [Except.ok ("id1", ⟨[⟨"a", 0, 1, 420⟩], "ff"⟩, 1)]).toOption.getD
          ⟨"", [], 0⟩)) ∧
    jsonKeys (chunkDataToJson ⟨[⟨"a", 0, 1, 420⟩], "ff"⟩) = ["files", "checksum"] ∧
    "iv" ∉ jsonKeys (chunkDataToJson ⟨[⟨"a", 0, 1, 420⟩], "ff"⟩) := by
  refine ⟨rfl, by decide, rfl, by decide⟩

/-- Claim C3 (amended): every successfully produced manifest document has
exactly the members version, chunks and size — no key field — and every
chunk record in it has exactly the members files and checksum (the
hex-encoded digest) — no IV field. -/
theorem c3_document_members (outcomes : List TaskOutcome) (m : Manifest)
    (h : assembleManifest outcomes = Except.ok m) :
    jsonKeys (manifestToJson m) = ["version", "chunks", "size"] ∧
      ∀ kv ∈ m.chunks, jsonKeys (chunkDataToJson kv.2) = ["files", "checksum"] :=
  ⟨rfl, fun _ _ => rfl⟩

/-- Concrete instantiation of c3_document_members. -/
theorem c3_document_members_witness :
    (assembleManifest [Except.ok ("id1", ⟨[], "ff"⟩, 0)] =
        Except.ok ⟨"2", [("id1", ⟨[], "ff"⟩)], 0⟩) ∧
      jsonKeys (manifestToJson ⟨"2", [("id1", ⟨[], "ff"⟩)], 0⟩) =
        ["version", "chunks", "size"] ∧
      ∀ kv ∈ ([("id1", (⟨[], "ff"⟩ : ChunkData))] : List (String × ChunkData)),
        jsonKeys (chunkDataToJson kv.2) = ["files", "checksum"] :=
  ⟨rfl, (c3_document_members [Except.ok ("id1", ⟨[], "ff"⟩, 0)]
    ⟨"2", [("id1", ⟨[], "ff"⟩)], 0⟩ rfl).1,
    (c3_document_members [Except.ok ("id1", ⟨[], "ff"⟩, 0)]
    ⟨"2", [("id1", ⟨[], "ff"⟩)], 0⟩ rfl).2⟩

end ManifestDocument

section ProgressReporter

/-- Embedding of the reporter loop of generate_manifest_rusty
(src/manifest.rs lines 212-219): starting from current_progress = 0 with
total_progress = chunks_length, each received completion message adds 1 to
current_progress and reports (current_progress / total_progress) * 100
through the caller's progress callback. The sequence of reported values
after receiving `received` messages out of `total` chunks is therefore the
k-th partial ratio for k = 1..received. The f32 arithmetic of the source is
modelled by exact rationals: the counter increments by 1.0 are exact in
f32 (well below 2^24), and at the endpoint total/total * 100.0 is exactly
100 in f32 as well. -/
def progressValues (total received : Nat) : List ℚ :=
  (List.range received).map (fun k : Nat => (((k : ℚ) + 1) / (total : ℚ)) * 100)

/-- Claim C8: every reported progress value lies in [0, 100], the reported
sequence is non-decreasing, and when every chunk task completes
successfully (one message per task, so received = total) the last reported
value is exactly 100. A failed task never sends its message, so received
can fall short of total, which the bounds also cover. -/
theorem c8_progress_monotone_bounded (total received : Nat)
    (hle : received ≤ total) (hpos : 0 < total) :
    (∀ v ∈ progressValues total received, 0 ≤ v ∧ v ≤ 100) ∧
      List.Chain' (fun a b : ℚ => a ≤ b) (progressValues total received) ∧
      (received = total → (progressValues total received).getLast? = some 100) := by
  have htq : (0 : ℚ) < (total : ℚ) := by exact_mod_cast hpos
  refine ⟨?_, ?_, ?_⟩
  · intro v hv
    rw [progressValues] at hv
    obtain ⟨k, hk, rfl⟩ := List.mem_map.mp hv
    rw [List.mem_range] at hk
    constructor
    · positivity
    · have hk1 : ((k : ℚ) + 1) ≤ (total : ℚ) := by
        have hc : (k : ℚ) + 1 = ((k + 1 : Nat) : ℚ) := by push_cast; ring
        rw [hc]
        exact_mod_cast Nat.succ_le_of_lt (Nat.lt_of_lt_of_le hk hle)
      have hdiv : ((k : ℚ) + 1) / (total : ℚ) ≤ 1 := (div_le_one htq).mpr hk1
      calc ((k : ℚ) + 1) / (total : ℚ) * 100 ≤ 1 * 100 := by
            exact mul_le_mul_of_nonneg_right hdiv (by norm_num)
        _ = 100 := by norm_num
  · rw [progressValues, List.chain'_map]
    refine List.Pairwise.chain' ?_
    refine List.Pairwise.imp ?_ (List.pairwise_lt_range received)
    intro a b hab
    have h1 : ((a : ℚ) + 1) ≤ ((b : ℚ) + 1) := by
      have hcast : (a : ℚ) ≤ (b : ℚ) := by exact_mod_cast Nat.le_of_lt hab
      linarith
    have h2 : ((a : ℚ) + 1) / (total : ℚ) ≤ ((b : ℚ) + 1) / (total : ℚ) :=
      (div_le_div_right htq).mpr h1
    exact mul_le_mul_of_nonneg_right h2 (by norm_num)
  · intro hrt
    obtain ⟨m, rfl⟩ : ∃ m, received = m + 1 := ⟨received - 1, by omega⟩
    rw [progressValues, List.range_succ, List.map_append, List.map_cons, List.map_nil,
      List.getLast?_concat]
    have htot : (total : ℚ) = (m : ℚ) + 1 := by
      rw [← hrt]
      push_cast
      ring
    rw [htot, div_self (by positivity)]
    norm_num

/-- Concrete instantiation of c8_progress_monotone_bounded. -/
theorem c8_progress_witness :
    (2 ≤ 2 ∧ 0 < 2) ∧
      ((∀ v ∈ progressValues 2 2, 0 ≤ v ∧ v ≤ 100) ∧
        List.Chain' (fun a b : ℚ => a ≤ b) (progressValues 2 2) ∧
        (2 = 2 → (progressValues 2 2).getLast? = some 100)) :=
  ⟨⟨le_refl 2, by norm_num⟩, c8_progress_monotone_bounded 2 2 (le_refl 2) (by norm_num)⟩

end ProgressReporter

section Readers

/-- Operational model of an open file as used by PathVersionBackend::reader:
the file's bytes and a read position. -/
structure FileHandle where
  contents : List Nat
  pos : Nat

/-- File::open (src/versions/backends.rs line 73): a handle at position 0. -/
def openFile (contents : List Nat) : FileHandle := ⟨contents, 0⟩

/-- seek(SeekFrom::Start(start)) (src/versions/backends.rs line 76). -/
def seekStart (h : FileHandle) (p : Nat) : FileHandle := ⟨h.contents, p⟩

/-- The bytes a handle delivers when read to end of stream: the remainder
of the file after the current position. -/
def readAll (h : FileHandle) : List Nat := h.contents.drop h.pos

/-- Embedding of PathVersionBackend::reader (src/versions/backends.rs
lines 67-84) as the total byte stream the returned reader delivers: open
the file, seek to start when start != 0, and when end != 0 wrap the file in
take(end - start), which limits the remaining stream to end - start bytes. -/
def pathReaderBytes (contents : List Nat) (start endPos : Nat) : List Nat :=
  let fh := openFile contents
  let fh := if start ≠ 0 then seekStart fh start else fh
  if endPos ≠ 0 then (readAll fh).take (endPos - start) else readAll fh

/-- Embedding of ZipVersionBackend::reader (src/versions/backends.rs
lines 197-215) as the total byte stream the returned reader delivers: a
BufReader over the stdout of `7z e -so <archive> <entry>`, which emits the
entire decompressed entry from its first byte to end of file. The _start
and _end parameters are bound with underscores in the source and never
used. -/
def zipReaderBytes (contents : List Nat) (_start _endPos : Nat) : List Nat :=
  contents

/-- Claim C10: ZipVersionBackend::reader ignores its start and end
arguments — for every file content and every range pair the delivered
stream is the entire decompressed file — unlike PathVersionBackend::reader,
which drops the first start bytes (seeking only when start is nonzero) and
truncates the stream to end - start bytes when end is nonzero. -/
theorem c10_zip_reader_ignores_range (contents : List Nat) (start endPos : Nat) :
    zipReaderBytes contents start endPos = contents ∧
      pathReaderBytes contents start endPos =
        (if endPos = 0 then contents.drop start
         else (contents.drop start).take (endPos - start)) := by
  refine ⟨rfl, ?_⟩
  unfold pathReaderBytes openFile seekStart readAll
  by_cases hs : start = 0
  · subst hs
    by_cases he : endPos = 0 <;> simp [he]
  · by_cases he : endPos = 0 <;> simp [hs, he]

end Readers

section Sha256

/-- 32-bit modular addition. -/
def add32 (a b : Nat) : Nat := (a + b) % 4294967296

/-- Right rotation of a 32-bit word (input below 2^32). -/
def rotr32 (k n : Nat) : Nat := n / 2 ^ k + n % 2 ^ k * 2 ^ (32 - k)

/-- Logical right shift of a 32-bit word. -/
def shr32 (k n : Nat) : Nat := n / 2 ^ k

/-- Bitwise complement of a 32-bit word (input below 2^32). -/
def not32 (n : Nat) : Nat := 4294967295 - n

/-- SHA-256 choice function. -/
def chF (e f g : Nat) : Nat := Nat.xor (Nat.land e f) (Nat.land (not32 e) g)

/-- SHA-256 majority function. -/
def majF (a b c : Nat) : Nat :=
  Nat.xor (Nat.xor (Nat.land a b) (Nat.land a c)) (Nat.land b c)

/-- SHA-256 big sigma 0. -/
def bigSigma0 (x : Nat) : Nat := Nat.xor (Nat.xor (rotr32 2 x) (rotr32 13 x)) (rotr32 22 x)

/-- SHA-256 big sigma 1. -/
def bigSigma1 (x : Nat) : Nat := Nat.xor (Nat.xor (rotr32 6 x) (rotr32 11 x)) (rotr32 25 x)

/-- SHA-256 small sigma 0. -/
def smallSigma0 (x : Nat) : Nat := Nat.xor (Nat.xor (rotr32 7 x) (rotr32 18 x)) (shr32 3 x)

/-- SHA-256 small sigma 1. -/
def smallSigma1 (x : Nat) : Nat := Nat.xor (Nat.xor (rotr32 17 x) (rotr32 19 x)) (shr32 10 x)

/-- The 64 SHA-256 round constants (FIPS 180-4 section 4.2.2). -/
def K256 : List Nat :=
  [1116352408, 1899447441, 3049323471, 3921009573,
    961987163, 1508970993, 2453635748, 2870763221,
    3624381080, 310598401, 607225278, 1426881987,
    1925078388, 2162078206, 2614888103, 3248222580,
    3835390401, 4022224774, 264347078, 604807628,
    770255983, 1249150122, 1555081692, 1996064986,
    2554220882, 2821834349, 2952996808, 3210313671,
    3336571891, 3584528711, 113926993, 338241895,
    666307205, 773529912, 1294757372, 1396182291,
    1695183700, 1986661051, 2177026350, 2456956037,
    2730485921, 2820302411, 3259730800, 3345764771,
    3516065817, 3600352804, 4094571909, 275423344,
    430227734, 506948616, 659060556, 883997877,
    958139571, 1322822218, 1537002063, 1747873779,
    1955562222, 2024104815, 2227730452, 2361852424,
    2428436474, 2756734187, 3204031479, 3329325298]

/-- The SHA-256 initial hash value (FIPS 180-4 section 5.3.3). -/
def H256 : List Nat :=
  [1779033703, 3144134277, 1013904242, 2773480762,
    1359893119, 2600822924, 528734635, 1541459225]

/-- Big-endian grouping of bytes into 32-bit words. -/
def bytesToWords : List Nat → List Nat
  | a :: b :: c :: d :: rest => (((a * 256 + b) * 256 + c) * 256 + d) :: bytesToWords rest
  | _ => []

/-- Message-schedule extension: repeatedly append
w[t] = sigma1(w[t-2]) + w[t-7] + sigma0(w[t-15]) + w[t-16] (mod 2^32). -/
def scheduleRounds : List Nat → Nat → List Nat
  | ws, 0 => ws
  | ws, n + 1 =>
    let t := ws.length
    let w := add32 (add32 (smallSigma1 (ws.getD (t - 2) 0)) (ws.getD (t - 7) 0))
      (add32 (smallSigma0 (ws.getD (t - 15) 0)) (ws.getD (t - 16) 0))
    scheduleRounds (ws ++ [w]) n

/-- One SHA-256 round on the working variables [a,b,c,d,e,f,g,h] with the
pair (round constant, schedule word). -/
def roundStep (st : List Nat) (kw : Nat × Nat) : List Nat :=
  match st with
  | [a, b, c, d, e, f, g, h8] =>
    let t1 := add32 h8 (add32 (bigSigma1 e) (add32 (chF e f g) (add32 kw.1 kw.2)))
    let t2 := add32 (bigSigma0 a) (majF a b c)
    [add32 t1 t2, a, b, c, add32 d t1, e, f, g]
  | other => other

/-- The SHA-256 compression function on one 64-byte block. -/
def compressBlock (h : List Nat) (block : List Nat) : List Nat :=
  let ws := scheduleRounds (bytesToWords block) 48
  let st := (K256.zip ws).foldl roundStep h
  (h.zip st).map (fun p => add32 p.1 p.2)

/-- Process every complete 64-byte block at the head of the buffer,
returning the new hash state and the remaining (under 64 bytes) buffer.
This is the block-buffered core shared by the one-shot digest and the
streaming update of the sha2 crate's API used at src/manifest.rs lines
154, 176 and 200. -/
def processBlocks (h : List Nat) (t : List Nat) : List Nat × List Nat :=
  if h64 : 64 ≤ t.length then processBlocks (compressBlock h (t.take 64)) (t.drop 64)
  else (h, t)
termination_by t.length
decreasing_by simp only [List.length_drop]; omega

/-- Big-endian 8-byte encoding of a length value below 2^64. -/
def lenBytes8 (n : Nat) : List Nat :=
  [n / 2 ^ 56 % 256, n / 2 ^ 48 % 256, n / 2 ^ 40 % 256, n / 2 ^ 32 % 256,
   n / 2 ^ 24 % 256, n / 2 ^ 16 % 256, n / 2 ^ 8 % 256, n % 256]

/-- SHA-256 padding for a message of the given byte length: the byte 0x80,
zeros up to 56 mod 64, then the bit length as 8 big-endian bytes. -/
def padSuffix (len : Nat) : List Nat :=
  128 :: (List.replicate ((119 - len % 64) % 64) 0 ++ lenBytes8 (8 * len % 2 ^ 64))

/-- Big-endian byte serialization of 32-bit words. -/
def wordBytes (w : Nat) : List Nat := [w / 2 ^ 24 % 256, w / 2 ^ 16 % 256, w / 2 ^ 8 % 256, w % 256]

/-- Byte serialization of a word list. -/
def wordsToBytes (ws : List Nat) : List Nat := (ws.map wordBytes).flatten

/-- One-shot SHA-256 of a byte string (FIPS 180-4): pad, compress every
block, serialize the final state. -/
def sha256 (msg : List Nat) : List Nat :=
  wordsToBytes (processBlocks H256 (msg ++ padSuffix msg.length)).1

/-- State of the streaming Sha256 hasher of the sha2 crate
(Sha256::new() at src/manifest.rs line 154): compressed hash state, the
buffered partial block, and the total number of bytes fed so far. -/
structure HasherState where
  hv : List Nat
  buf : List Nat
  len : Nat
deriving Repr

/-- Sha256::new(): initial state. -/
def hasherInit : HasherState := ⟨H256, [], 0⟩

/-- hasher.update(data) (src/manifest.rs line 176): append the data to the
buffer, compress every complete block, count the bytes. -/
def hasherUpdate (st : HasherState) (d : List Nat) : HasherState :=
  let r := processBlocks st.hv (st.buf ++ d)
  ⟨r.1, r.2, st.len + d.length⟩

/-- hasher.finalize() (src/manifest.rs line 200): pad with the total
length and compress the closing blocks, then serialize. -/
def hasherFinalize (st : HasherState) : List Nat :=
  wordsToBytes (processBlocks st.hv (st.buf ++ padSuffix st.len)).1

/-- Lowercase hex digit. -/
def hexDigit (n : Nat) : Char := if n < 10 then Char.ofNat (48 + n) else Char.ofNat (87 + n)

/-- Lowercase hex encoding of a byte string, as produced by
hex::ToHex::encode_hex at src/manifest.rs line 200. -/
def hexEncode (bytes : List Nat) : String :=
  String.mk ((bytes.map (fun b => [hexDigit (b / 16), hexDigit (b % 16)])).flatten)

end Sha256

section Sha256Streaming

/-- A buffer below one block passes through processBlocks untouched. -/
theorem processBlocks_small (h a : List Nat) (hlen : a.length < 64) :
    processBlocks h a = (h, a) := by
  rw [processBlocks]
  simp [Nat.not_le.mpr hlen]

theorem processBlocks_append_aux (n : Nat) :
    ∀ (a : List Nat), a.length ≤ n → ∀ (h b : List Nat),
      processBlocks h (a ++ b) =
        processBlocks (processBlocks h a).1 ((processBlocks h a).2 ++ b) := by
  induction n with
  | zero =>
    intro a hlen h b
    rw [processBlocks_small h a (by omega)]
  | succ n ih =>
    intro a hlen h b
    by_cases h64 : 64 ≤ a.length
    · have htk : (a ++ b).take 64 = a.take 64 := List.take_append_of_le_length h64
      have hdr : (a ++ b).drop 64 = a.drop 64 ++ b := List.drop_append_of_le_length h64
      have hlhs : processBlocks h (a ++ b) =
          processBlocks (compressBlock h (a.take 64)) (a.drop 64 ++ b) := by
        rw [processBlocks]
        simp only [List.length_append, htk, hdr]
        rw [dif_pos (by omega)]
      have hrhs : processBlocks h a = processBlocks (compressBlock h (a.take 64)) (a.drop 64) := by
        rw [processBlocks]
        rw [dif_pos h64]
      rw [hlhs, hrhs]
      exact ih (a.drop 64) (by simp only [List.length_drop]; omega) _ b
    · rw [processBlocks_small h a (by omega)]

/-- Block processing composes over concatenation: feeding a ++ b equals
feeding a, then b on top of the leftover buffer. -/
theorem processBlocks_append (h a b : List Nat) :
    processBlocks h (a ++ b) =
      processBlocks (processBlocks h a).1 ((processBlocks h a).2 ++ b) := by
  exact processBlocks_append_aux a.length a (le_refl _) h b

/-- The canonical hasher state after having been fed exactly msg. -/
def hasherStateOf (msg : List Nat) : HasherState :=
  ⟨(processBlocks H256 msg).1, (processBlocks H256 msg).2, msg.length⟩

theorem hasherInit_stateOf : hasherInit = hasherStateOf [] := by
  unfold hasherInit hasherStateOf
  rw [processBlocks_small H256 [] (by simp)]
  rfl

/-- Streaming update invariant: updating the canonical state of msg with d
yields the canonical state of msg ++ d, whatever the buffer split. -/
theorem hasherUpdate_stateOf (msg d : List Nat) :
    hasherUpdate (hasherStateOf msg) d = hasherStateOf (msg ++ d) := by
  unfold hasherUpdate hasherStateOf
  rw [processBlocks_append H256 msg d]
  simp

/-- Finalizing the canonical state of msg yields the one-shot digest. -/
theorem hasherFinalize_stateOf (msg : List Nat) :
    hasherFinalize (hasherStateOf msg) = sha256 msg := by
  unfold hasherFinalize hasherStateOf sha256
  rw [processBlocks_append H256 msg (padSuffix msg.length)]

/-- Folding updates over any buffer partition feeds the concatenation. -/
theorem foldl_hasherUpdate (bufs : List (List Nat)) : ∀ msg : List Nat,
    bufs.foldl hasherUpdate (hasherStateOf msg) = hasherStateOf (msg ++ bufs.flatten) := by
  induction bufs with
  | nil => intro msg; simp
  | cons d rest ih =>
    intro msg
    rw [List.foldl_cons, hasherUpdate_stateOf, ih (msg ++ d)]
    simp

end Sha256Streaming

section C6

/-- Embedding of one chunk task of generate_manifest_rusty
(src/manifest.rs lines 150-207) as a function of the byte buffers the
backend readers deliver: for each planned slice (file, start, length), a
reader for the range [start, start + length) is acquired (line 167) and
read in a loop (lines 171-177) that feeds every returned buffer to the
streaming hasher in order until a zero-length read signals end of stream;
`delivered s` is that buffer sequence. After each slice, a FileEntry with
the slice's filename, start, length and permissions is appended
(lines 181-186) and chunk_length grows by the planned length (line 179).
The checksum is the hex-encoded finalized digest (lines 200-201). -/
def runChunkTask (chunk : List Slice) (delivered : Slice → List (List Nat)) :
    ChunkData × Nat :=
  let final := chunk.foldl
    (fun (acc : HasherState × List FileEntry × Nat) s =>
      ((delivered s).foldl hasherUpdate acc.1,
        acc.2.1 ++ [⟨s.1.relative_filename, s.2.1, s.2.2, s.1.permission⟩],
        acc.2.2 + s.2.2))
    (hasherInit, [], 0)
  ({ files := final.2.1, checksum := hexEncode (hasherFinalize final.1) }, final.2.2)

theorem runChunkTask_fold (delivered : Slice → List (List Nat)) (chunk : List Slice) :
    ∀ (msg : List Nat) (fes : List FileEntry) (len : Nat),
      chunk.foldl
        (fun (acc : HasherState × List FileEntry × Nat) s =>
          ((delivered s).foldl hasherUpdate acc.1,
            acc.2.1 ++ [⟨s.1.relative_filename, s.2.1, s.2.2, s.1.permission⟩],
            acc.2.2 + s.2.2))
        (hasherStateOf msg, fes, len) =
      (hasherStateOf (msg ++ (chunk.map (fun s => (delivered s).flatten)).flatten),
        fes ++ chunk.map (fun s => ⟨s.1.relative_filename, s.2.1, s.2.2, s.1.permission⟩),
        len + (chunk.map sliceLen).sum) := by
  induction chunk with
  | nil => intro msg fes len; simp
  | cons s rest ih =>
    intro msg fes len
    rw [List.foldl_cons]
    dsimp only
    rw [foldl_hasherUpdate (delivered s) msg, ih (msg ++ (delivered s).flatten)]
    simp [sliceLen, Nat.add_assoc]

/-- Claim C6: for every chunk a task records, the checksum is the
hex-encoded SHA-256 digest of the exact concatenation, in the order of the
listed FileEntry records, of the bytes delivered for each listed slice —
and the FileEntry list is exactly the slices in processing order. The
streaming digest over the per-read buffers equals the one-shot hash of the
concatenation regardless of how the readers split the bytes. -/
theorem c6_checksum_is_sha256_of_concatenation (chunk : List Slice)
    (delivered : Slice → List (List Nat)) :
    (runChunkTask chunk delivered).1.checksum =
      hexEncode (sha256 ((chunk.map (fun s => (delivered s).flatten)).flatten)) ∧
      (runChunkTask chunk delivered).1.files =
        chunk.map (fun s => ⟨s.1.relative_filename, s.2.1, s.2.2, s.1.permission⟩) := by
  unfold runChunkTask
  rw [hasherInit_stateOf, runChunkTask_fold delivered chunk [] [] 0]
  dsimp only
  rw [List.nil_append, List.nil_append, hasherFinalize_stateOf]
  exact ⟨rfl, rfl⟩

end C6

end Droplet
